import Mathlib

/-!
Shallow embedding of the core of `ip_route_command.py`: the record extractor
`_extract_output`, the record validator `_validate_output`, the two-mode
output serializer `generate_output`, and the command-line input acquisition
`_take_input_from_commandline`, together with proofs about them.

Python dicts are modelled as insertion-ordered association lists, Python
lists as Lean lists, and the two observable effects of the program (the
`exit(0)` rejection path and the uncaught `IndexError`/`AttributeError`
crashes) as explicit result constructors or `Option` failures.
-/

namespace IpRoute

/-- A Python dict with string keys and values, modelled as its
insertion-ordered list of key/value entries. -/
abbrev Record := List (String × String)

/-- Python dict assignment `d[k] = v`: when the key is already present its
value is updated in place (the entry keeps its position), otherwise the new
entry is appended at the end. -/
def dictInsert (d : Record) (k v : String) : Record :=
  if d.any (fun p => p.1 == k) then
    d.map (fun p => if p.1 == k then (k, v) else p)
  else d ++ [(k, v)]

/-- Python dict lookup, `none` when the key is absent. -/
def dictFind (d : Record) (k : String) : Option String :=
  (d.find? (fun p => p.1 == k)).map (fun p => p.2)

/-- The membership test `k in d` on a Python dict (it checks keys). -/
def dictHasKey (d : Record) (k : String) : Bool :=
  d.any (fun p => p.1 == k)

/-- The inner loop of `_extract_output` over one row: for each column index
in header order, a non-empty cell inserts `header[i] = row[i]` into the
record being built; reading `row[i]` past the end of the row is Python's
uncaught `IndexError`, modelled as `none`. -/
def extractRow (elements row : List String) (result : Record) : Option Record :=
  match elements, row with
  | [], _ => some result
  | _ :: _, [] => none
  | e :: es, c :: cs =>
      extractRow es cs (if c == "" then result else dictInsert result e c)

/-- `_extract_output`: builds one sparse record per parsed row, in row
order; `none` models the uncaught `IndexError` raised on the first row that
is shorter than the header. -/
def _extract_output (header : List String) : List (List String) → Option (List Record)
  | [] => some []
  | row :: rest =>
      match extractRow header row [] with
      | none => none
      | some r =>
          match _extract_output header rest with
          | none => none
          | some rs => some (r :: rs)

/-- The single fixed diagnostic printed by `_validate_output` on rejection. -/
def errorMessage : String := "ERROR - Input given is not from linux ip route command"

/-- Which disjunct of the rejection guard in `_validate_output` fired: the
list was empty, or no record carried a gateway key. -/
inductive RejectKind where
  | EmptyInput
  | UnrecognizedFormat
deriving DecidableEq

/-- Observable outcome of `_validate_output`: either the record list is
returned unchanged, or the given message is printed and the process exits
with the given status code. -/
inductive ValidateResult where
  | accepted (records : List Record)
  | rejected (message : String) (exitCode : Nat) (kind : RejectKind)
deriving DecidableEq

/-- Whether a record contains a field named gateway, `"gateway" in elem`. -/
def hasGateway (r : Record) : Bool := dictHasKey r "gateway"

/-- `_validate_output`: when the record list is empty or no record contains
a gateway key, prints the fixed message and exits with status 0; otherwise
returns the list unchanged. -/
def _validate_output (out : List Record) : ValidateResult :=
  if out.isEmpty || !(out.any hasGateway) then
    .rejected errorMessage 0 (if out.isEmpty then .EmptyInput else .UnrecognizedFormat)
  else .accepted out

/-- An element of the heterogeneous Python list handed to `generate_output`:
either one of the parsed record dicts or a literal string marker. -/
inductive Entry where
  | obj (r : Record)
  | str (s : String)
deriving DecidableEq

/-- The single-quote character. -/
def squoteChar : Char := Char.ofNat 39

/-- Python `repr` of a cell string: single-quoted. (Routing-table cells
contain no quote, backslash or control characters, so no escaping and no
quote-style switching arises for them.) -/
def pyReprStr (s : String) : String :=
  String.singleton squoteChar ++ s ++ String.singleton squoteChar

/-- Python `str` of a record dict: comma-separated quoted key/value pairs
between braces, in insertion order. -/
def pyReprDict (r : Record) : String :=
  "\x7b" ++ String.intercalate ", " (r.map (fun p => pyReprStr p.1 ++ ": " ++ pyReprStr p.2)) ++ "\x7d"

/-- Python `str` of a list element: a string is itself, a dict its repr. -/
def pyStr : Entry → String
  | .obj r => pyReprDict r
  | .str s => s

/-- The comma-insertion loop of classic printing: the element at position
`i` of the bracket-augmented list of length `n` receives a comma right
before it exactly when `1 < i < n - 1`. -/
def insertCommasFrom (i n : Nat) : List Entry → List Entry
  | [] => []
  | e :: rest =>
      (if 1 < i ∧ i < n - 1 then [Entry.str ",", e] else [e]) ++ insertCommasFrom (i + 1) n rest

/-- The double-quote character. -/
def quoteChar : Char := Char.ofNat 34

/-- The backslash character. -/
def backslashChar : Char := Char.ofNat 92

/-- The newline character. -/
def newlineChar : Char := Char.ofNat 10

/-- The space character. -/
def spaceChar : Char := Char.ofNat 32

/-- The comma character. -/
def commaChar : Char := Char.ofNat 44

/-- The colon character. -/
def colonChar : Char := Char.ofNat 58

/-- The opening square bracket character. -/
def lbrack : Char := Char.ofNat 91

/-- The closing square bracket character. -/
def rbrack : Char := Char.ofNat 93

/-- The opening curly brace character. -/
def lbrace : Char := Char.ofNat 123

/-- The closing curly brace character. -/
def rbrace : Char := Char.ofNat 125

/-- The lowercase hexadecimal digit character for `n < 16`. -/
def toHexDigitChar (n : Nat) : Char :=
  if n < 10 then Char.ofNat (48 + n) else Char.ofNat (87 + n)

/-- The four hexadecimal digit characters of `n < 65536`, most significant
first. -/
def hex4Chars (n : Nat) : List Char :=
  [toHexDigitChar (n / 4096 % 16), toHexDigitChar (n / 256 % 16),
   toHexDigitChar (n / 16 % 16), toHexDigitChar (n % 16)]

/-- The escaped form of one character inside a JSON string as Python's
`json.dumps` (with its default `ensure_ascii`) renders it: printable ASCII
other than the quote and the backslash stands for itself; the quote, the
backslash, backspace, form feed, newline, carriage return and tab get their
two-character escapes; every other character becomes a `\uXXXX` escape, as
a surrogate pair when it lies above the basic multilingual plane. -/
def jsonEscapeChar (c : Char) : List Char :=
  if c == quoteChar then [backslashChar, quoteChar]
  else if c == backslashChar then [backslashChar, backslashChar]
  else if c == Char.ofNat 8 then [backslashChar, 'b']
  else if c == Char.ofNat 12 then [backslashChar, 'f']
  else if c == newlineChar then [backslashChar, 'n']
  else if c == Char.ofNat 13 then [backslashChar, 'r']
  else if c == Char.ofNat 9 then [backslashChar, 't']
  else if 32 ≤ c.toNat && c.toNat ≤ 126 then [c]
  else if c.toNat < 65536 then
    backslashChar :: 'u' :: hex4Chars c.toNat
  else
    backslashChar :: 'u' :: hex4Chars (55296 + (c.toNat - 65536) / 1024)
      ++ backslashChar :: 'u' :: hex4Chars (56320 + (c.toNat - 65536) % 1024)

/-- A JSON string literal as `json.dumps` renders it: quote, escaped body,
quote. -/
def jsonQuoteChars (s : String) : List Char :=
  quoteChar :: (s.data.flatMap jsonEscapeChar ++ [quoteChar])

/-- `n` spaces. -/
def spacesChars (n : Nat) : List Char := List.replicate n spaceChar

/-- One `"key": "value"` member line at indentation `w`. -/
def jsonMemberChars (w : Nat) (p : String × String) : List Char :=
  spacesChars w ++ jsonQuoteChars p.1 ++ colonChar :: spaceChar :: jsonQuoteChars p.2

/-- The members of a non-empty object, one per line at indentation `w`,
separated by a comma and a newline. -/
def jsonMembersChars (w : Nat) : Record → List Char
  | [] => []
  | [p] => jsonMemberChars w p
  | p :: ps => jsonMemberChars w p ++ commaChar :: newlineChar :: jsonMembersChars w ps

/-- A record dict as `json.dumps(.., indent=2)` renders it when the object
itself starts at indentation `w`: braces on their own when empty, otherwise
one member per line at indentation `w + 2` with the closing brace back at
indentation `w`. -/
def jsonObjChars (w : Nat) (r : Record) : List Char :=
  match r with
  | [] => [lbrace, rbrace]
  | _ => lbrace :: newlineChar ::
      (jsonMembersChars (w + 2) r ++ newlineChar :: (spacesChars w ++ [rbrace]))

/-- One list element as `json.dumps` renders it: a dict as an object, a
string as a JSON string literal. -/
def jsonEntryChars (w : Nat) : Entry → List Char
  | .obj r => jsonObjChars w r
  | .str s => jsonQuoteChars s

/-- The items of a non-empty array, one per line at indentation `w`,
separated by a comma and a newline. -/
def jsonItemsChars (w : Nat) : List Entry → List Char
  | [] => []
  | [e] => spacesChars w ++ jsonEntryChars w e
  | e :: es => spacesChars w ++ jsonEntryChars w e ++ commaChar :: newlineChar :: jsonItemsChars w es

/-- `json.dumps(output, indent=2)` for the list handed to the serializer. -/
def jsonDumpChars (entries : List Entry) : List Char :=
  match entries with
  | [] => [lbrack, rbrack]
  | _ => lbrack :: newlineChar :: (jsonItemsChars 2 entries ++ [newlineChar, rbrack])

/-- `generate_output`: returns the pair of the final state of the `output`
list (classic mode mutates it in place, appending a closing bracket marker
and then inserting an opening one at the front) and the returned string.
Classic mode joins the Python `str` forms of the bracket-augmented list
with the positional comma rule of `insertCommasFrom`; json mode leaves the
list untouched and returns `json.dumps(output, indent=2)`. -/
def generate_output (output : List Entry) (classic_printing : Bool) : List Entry × String :=
  if classic_printing then
    let staged := Entry.str "[" :: (output ++ [Entry.str "]"])
    (staged, String.join ((insertCommasFrom 0 staged.length staged).map pyStr))
  else (output, String.mk (jsonDumpChars output))

/-- Observable outcome of the extract, validate, serialize pipeline of
`parse_and_transform`, after the external engine has produced the header
and the rows. -/
inductive RunResult where
  | fatal
  | exited (message : String) (code : Nat)
  | output (text : String)
deriving DecidableEq

/-- The core pipeline: extraction (whose uncaught `IndexError` is a fatal,
non-zero crash), then validation (whose rejection prints its message and
exits with its status code), then serialization of the accepted records. -/
def runPipeline (header : List String) (rows : List (List String)) (classic : Bool) : RunResult :=
  match _extract_output header rows with
  | none => .fatal
  | some recs =>
      match _validate_output recs with
      | .rejected m c _ => .exited m c
      | .accepted v => .output (generate_output (v.map Entry.obj) classic).2

/-- Models `argparse` in `_take_input_from_commandline`: `parse_args` over
the single positional argument named `ip_route_output` yields a namespace
whose only attribute is that name, bound to the supplied text. -/
def parse_args (text : String) : List (String × String) :=
  [("ip_route_output", text)]

/-- Python attribute access on the argument namespace; `none` models the
uncaught `AttributeError` raised for an attribute that does not exist. -/
def getattrNamespace (ns : List (String × String)) (attr : String) : Option String :=
  (ns.find? (fun p => p.1 == attr)).map (fun p => p.2)

/-- `_take_input_from_commandline`: builds the parser with the positional
argument `ip_route_output`, parses the command line holding the supplied
text, then evaluates `args.input_string`. -/
def _take_input_from_commandline (text : String) : Option String :=
  getattrNamespace (parse_args text) "input_string"

/-- The spec's description of one extracted record: the header zipped with
the row, restricted to the non-empty cells, in header order. -/
def specRecordOf (header row : List String) : Record :=
  (header.zip row).filter (fun p => p.2 != "")

/-- Comma-joined concatenation with the separator strictly between
adjacent elements: the spec's target shape for classic mode. -/
def commaJoin : List String → String
  | [] => ""
  | [s] => s
  | s :: ss => s ++ "," ++ commaJoin ss

/-- The hexadecimal value of a digit character, if it is one. -/
def hexCharVal (c : Char) : Option Nat :=
  if 48 ≤ c.toNat && c.toNat ≤ 57 then some (c.toNat - 48)
  else if 97 ≤ c.toNat && c.toNat ≤ 102 then some (c.toNat - 87)
  else if 65 ≤ c.toNat && c.toNat ≤ 70 then some (c.toNat - 55)
  else none

/-- The value of a four-digit hexadecimal escape body. -/
def hex4Val (a b c d : Char) : Option Nat :=
  match hexCharVal a, hexCharVal b, hexCharVal c, hexCharVal d with
  | some va, some vb, some vc, some vd => some (((va * 16 + vb) * 16 + vc) * 16 + vd)
  | _, _, _, _ => none

/-- The single-character JSON escapes. -/
def jsonUnescape (c : Char) : Option Char :=
  if c == quoteChar then some quoteChar
  else if c == backslashChar then some backslashChar
  else if c == Char.ofNat 47 then some (Char.ofNat 47)
  else if c == 'b' then some (Char.ofNat 8)
  else if c == 'f' then some (Char.ofNat 12)
  else if c == 'n' then some newlineChar
  else if c == 'r' then some (Char.ofNat 13)
  else if c == 't' then some (Char.ofNat 9)
  else none

/-- Parses the body of a JSON string literal after its opening quote,
undoing the escapes (surrogate pairs included); returns the decoded
characters and the remainder of the input after the closing quote. The
`fuel` argument only bounds the recursion; every step consumes at least
one input character, so the wrapper below supplies enough for any input. -/
def parseStringBodyF : Nat → List Char → Option (List Char × List Char)
  | 0, _ => none
  | _ + 1, [] => none
  | fuel + 1, c :: cs =>
      if c == quoteChar then some ([], cs)
      else if c == backslashChar then
        match cs with
        | [] => none
        | e :: cs2 =>
            if e == 'u' then
              match cs2 with
              | h1 :: h2 :: h3 :: h4 :: cs3 =>
                  match hex4Val h1 h2 h3 h4 with
                  | none => none
                  | some n =>
                      if 55296 ≤ n && n < 56320 then
                        match cs3 with
                        | b1 :: b2 :: g1 :: g2 :: g3 :: g4 :: cs4 =>
                            if b1 == backslashChar && b2 == 'u' then
                              match hex4Val g1 g2 g3 g4 with
                              | none => none
                              | some m =>
                                  if 56320 ≤ m && m < 57344 then
                                    match parseStringBodyF fuel cs4 with
                                    | none => none
                                    | some (s, rest) =>
                                        some (Char.ofNat (65536 + (n - 55296) * 1024 + (m - 56320)) :: s, rest)
                                  else none
                            else none
                        | _ => none
                      else
                        match parseStringBodyF fuel cs3 with
                        | none => none
                        | some (s, rest) => some (Char.ofNat n :: s, rest)
              | _ => none
            else
              match jsonUnescape e with
              | none => none
              | some d =>
                  match parseStringBodyF fuel cs2 with
                  | none => none
                  | some (s, rest) => some (d :: s, rest)
      else
        match parseStringBodyF fuel cs with
        | none => none
        | some (s, rest) => some (c :: s, rest)

/-- Parses the body of a JSON string literal after its opening quote. -/
def parseStringBody (cs : List Char) : Option (List Char × List Char) :=
  parseStringBodyF (cs.length + 1) cs

/-- Parses a JSON string literal, opening quote included. -/
def parseJsonStringChars (cs : List Char) : Option (List Char × List Char) :=
  match cs with
  | c :: rest => if c == quoteChar then parseStringBody rest else none
  | [] => none

/-- JSON insignificant whitespace. -/
def isJsonWs (c : Char) : Bool :=
  c == spaceChar || c == newlineChar || c == Char.ofNat 9 || c == Char.ofNat 13

/-- Drops leading JSON whitespace. -/
def skipWs : List Char → List Char
  | [] => []
  | c :: cs => if isJsonWs c then skipWs cs else c :: cs

/-- Parses the members of a JSON object after its opening brace, for a
non-empty object; `fuel` bounds the number of members. -/
def parseObjMembers (fuel : Nat) (cs : List Char) : Option (Record × List Char) :=
  match fuel with
  | 0 => none
  | fuel + 1 =>
      match parseJsonStringChars (skipWs cs) with
      | none => none
      | some (k, r1) =>
          match skipWs r1 with
          | [] => none
          | c :: r2 =>
              if c == colonChar then
                match parseJsonStringChars (skipWs r2) with
                | none => none
                | some (v, r3) =>
                    match skipWs r3 with
                    | [] => none
                    | d :: r4 =>
                        if d == commaChar then
                          match parseObjMembers fuel r4 with
                          | none => none
                          | some (ms, r5) => some ((String.mk k, String.mk v) :: ms, r5)
                        else if d == rbrace then some ([(String.mk k, String.mk v)], r4)
                        else none
              else none

/-- Parses a JSON object whose values are all strings. -/
def parseJsonObj (cs : List Char) : Option (Record × List Char) :=
  match cs with
  | c :: r =>
      if c == lbrace then
        match skipWs r with
        | d :: r2 =>
            if d == rbrace then some ([], r2)
            else parseObjMembers (r.length + 1) (d :: r2)
        | [] => none
      else none
  | [] => none

/-- Parses the items of a JSON array of objects, for a non-empty array;
`fuel` bounds the number of items. -/
def parseArrItems (fuel : Nat) (cs : List Char) : Option (List Record × List Char) :=
  match fuel with
  | 0 => none
  | fuel + 1 =>
      match parseJsonObj (skipWs cs) with
      | none => none
      | some (r, r1) =>
          match skipWs r1 with
          | [] => none
          | c :: r2 =>
              if c == commaChar then
                match parseArrItems fuel r2 with
                | none => none
                | some (rs, r3) => some (r :: rs, r3)
              else if c == rbrack then some ([r], r2)
              else none

/-- Reads a string as a JSON array of string-valued objects, requiring the
whole input to be consumed: the reading of the serializer's json-mode
output back as JSON. -/
def parseJsonRecords (s : String) : Option (List Record) :=
  match skipWs s.data with
  | c :: r =>
      if c == lbrack then
        match skipWs r with
        | d :: r2 =>
            if d == rbrack then (if (skipWs r2).isEmpty then some [] else none)
            else
              match parseArrItems (r.length + 1) (d :: r2) with
              | none => none
              | some (rs, rest) => if (skipWs rest).isEmpty then some rs else none
        | [] => none
      else none
  | [] => none

/-! ## General helpers -/

theorem string_join_cons (a : String) (l : List String) :
    String.join (a :: l) = a ++ String.join l := by
  apply String.ext
  simp

/-! ## The extractor -/

theorem extractRow_eq_none_iff (es : List String) : ∀ (cs : List String) (acc : Record),
    extractRow es cs acc = none ↔ cs.length < es.length := by
  induction es with
  | nil => intro cs acc; simp [extractRow]
  | cons e es ih =>
      intro cs acc
      cases cs with
      | nil => simp [extractRow]
      | cons c cs => simp [extractRow, ih, Nat.succ_lt_succ_iff]

theorem extract_output_eq_none_iff (h : List String) (rows : List (List String)) :
    _extract_output h rows = none ↔ ∃ row ∈ rows, row.length < h.length := by
  induction rows with
  | nil => simp [_extract_output]
  | cons row rest ih =>
      rw [_extract_output]
      rcases hrow : extractRow h row [] with _ | r
      · have hlt := (extractRow_eq_none_iff h row []).mp hrow
        exact iff_of_true rfl ⟨row, List.mem_cons_self _ _, hlt⟩
      · have hnlt : ¬ row.length < h.length := fun hlt => by
          rw [(extractRow_eq_none_iff h row []).mpr hlt] at hrow
          exact Option.noConfusion hrow
        rcases hrest : _extract_output h rest with _ | rs
        · obtain ⟨w, hw, hwlt⟩ := ih.mp hrest
          exact iff_of_true rfl ⟨w, List.mem_cons_of_mem _ hw, hwlt⟩
        · constructor
          · intro hc; exact Option.noConfusion hc
          · rintro ⟨w, hw, hwlt⟩
            rcases List.mem_cons.mp hw with rfl | hw'
            · exact absurd hwlt hnlt
            · rw [ih.mpr ⟨w, hw', hwlt⟩] at hrest
              exact Option.noConfusion hrest

theorem extractRow_take (es : List String) : ∀ (cs : List String) (acc : Record),
    extractRow es (cs.take es.length) acc = extractRow es cs acc := by
  induction es with
  | nil => intro cs acc; simp [extractRow]
  | cons e es ih =>
      intro cs acc
      cases cs with
      | nil => simp
      | cons c cs => simp [extractRow, ih]

theorem extract_output_take (h : List String) (rows : List (List String)) :
    _extract_output h (rows.map (fun row => row.take h.length)) = _extract_output h rows := by
  induction rows with
  | nil => simp
  | cons row rest ih => simp only [List.map_cons, _extract_output, extractRow_take, ih]

theorem dictInsert_fresh (acc : Record) (k v : String) (h : ∀ p ∈ acc, p.1 ≠ k) :
    dictInsert acc k v = acc ++ [(k, v)] := by
  rw [dictInsert, if_neg]
  intro hc
  rw [List.any_eq_true] at hc
  obtain ⟨p, hp, he⟩ := hc
  exact h p hp (by simpa using he)

theorem extractRow_spec (es : List String) : ∀ (cs : List String) (acc : Record),
    es.Nodup → (∀ p ∈ acc, p.1 ∉ es) → cs.length = es.length →
    extractRow es cs acc = some (acc ++ (es.zip cs).filter (fun p => p.2 != "")) := by
  induction es with
  | nil =>
      intro cs acc _ _ hlen
      rw [List.length_eq_zero.mp hlen]
      simp [extractRow]
  | cons e es ih =>
      intro cs acc hnd hfresh hlen
      cases cs with
      | nil => simp at hlen
      | cons c cs =>
          have hlen' : cs.length = es.length := by simpa using hlen
          have hnd' : es.Nodup := hnd.of_cons
          simp only [extractRow]
          by_cases hc : c == ""
          · rw [if_pos hc]
            rw [ih cs acc hnd' (fun p hp hmem => hfresh p hp (List.mem_cons_of_mem _ hmem)) hlen']
            have : ((e, c).2 != "") = false := by simpa using hc
            simp [List.filter_cons, this]
          · rw [if_neg hc]
            have hins : dictInsert acc e c = acc ++ [(e, c)] :=
              dictInsert_fresh acc e c
                (fun p hp hpe => hfresh p hp (hpe ▸ List.mem_cons_self e es))
            have hfresh' : ∀ p ∈ dictInsert acc e c, p.1 ∉ es := by
              rw [hins]
              intro p hp
              rcases List.mem_append.mp hp with hpacc | hpe
              · exact fun hmem => hfresh p hpacc (List.mem_cons_of_mem _ hmem)
              · have : p = (e, c) := by simpa using hpe
                rw [this]
                exact (List.nodup_cons.mp hnd).1
            rw [ih cs (dictInsert acc e c) hnd' hfresh' hlen', hins]
            have : ((e, c).2 != "") = true := by simpa using hc
            simp [List.filter_cons, this]

theorem extract_output_spec (h : List String) (rows : List (List String))
    (hnd : h.Nodup) (hlen : ∀ row ∈ rows, row.length = h.length) :
    _extract_output h rows = some (rows.map (specRecordOf h)) := by
  induction rows with
  | nil => simp [_extract_output]
  | cons row rest ih =>
      rw [_extract_output,
        extractRow_spec h row [] hnd (by simp) (hlen row (List.mem_cons_self _ _)),
        ih (fun r hr => hlen r (List.mem_cons_of_mem _ hr))]
      simp [specRecordOf]

/-- C1 counterexample: with the duplicated header `["a", "a"]` and the row
`["x", "y"]` (equal lengths), the extracted record binds the key `a` to the
last matching cell `y`, not to `x` as the claim's clause that `H[0]` is
mapped to `row[0]` requires, and the record also differs from the header
order restricted to non-empty cells, which lists the key twice. -/
theorem extract_dup_header_cex :
    _extract_output ["a", "a"] [["x", "y"]] = some [[("a", "y")]] ∧
    dictFind [("a", "y")] "a" ≠ some "x" ∧
    [("a", "y")] ≠ specRecordOf ["a", "a"] ["x", "y"] := by
  refine ⟨rfl, by decide, by decide⟩

/-- C1 (amended): for every header with pairwise-distinct column names and
rows of exactly the header's length, extraction yields one record per row
in row order, and each record is exactly the header zipped with its row
restricted to the non-empty cells, in header order, each non-empty cell
keyed by its column name; an all-empty row yields an empty record. -/
theorem extract_sparse_records_of_nodup_header (h : List String) (rows : List (List String))
    (hnd : h.Nodup) (hlen : ∀ row ∈ rows, row.length = h.length) :
    _extract_output h rows = some (rows.map (specRecordOf h)) :=
  extract_output_spec h rows hnd hlen

theorem extract_sparse_records_witness :
    _extract_output ["dest", "gateway", "dev"] [["default", "192.168.1.1", "eth0"], ["", "", ""]] =
      some [[("dest", "default"), ("gateway", "192.168.1.1"), ("dev", "eth0")], []] :=
  extract_sparse_records_of_nodup_header ["dest", "gateway", "dev"]
    [["default", "192.168.1.1", "eth0"], ["", "", ""]] (by decide) (by decide)

/-- C4 counterexample: a row strictly longer than the header does not make
`_extract_output` fail at all, against the claim that every length
mismatch fails with a schema error: the extra cell is silently dropped. -/
theorem extract_overlong_row_no_error_cex :
    (["x", "y"] : List String).length ≠ (["a"] : List String).length ∧
    _extract_output ["a"] [["x", "y"]] = some [[("a", "x")]] :=
  ⟨by decide, rfl⟩

/-- C4 (amended): extraction fails exactly when some row is strictly
shorter than the header, and the failure is an uncaught index error (a
hard, non-zero crash) rather than a dedicated SchemaMismatch value; a row
longer than the header never causes a failure. -/
theorem extract_fails_iff_short_row (h : List String) (rows : List (List String)) :
    _extract_output h rows = none ↔ ∃ row ∈ rows, row.length < h.length :=
  extract_output_eq_none_iff h rows

/-- C10: a header against strictly longer rows never fails and produces
exactly what the rows truncated to the header length produce: the extra
cells are silently ignored. -/
theorem extract_ignores_extra_cells (h : List String) (rows : List (List String))
    (hlong : ∀ row ∈ rows, h.length < row.length) :
    _extract_output h rows ≠ none ∧
    _extract_output h rows = _extract_output h (rows.map (fun row => row.take h.length)) := by
  constructor
  · intro hc
    obtain ⟨row, hrow, hlt⟩ := (extract_output_eq_none_iff h rows).mp hc
    exact absurd hlt (Nat.lt_asymm (hlong row hrow))
  · exact (extract_output_take h rows).symm

theorem extract_ignores_extra_cells_witness :
    _extract_output ["a"] [["x", "y", "z"]] ≠ none ∧
    _extract_output ["a"] [["x", "y", "z"]] =
      _extract_output ["a"] ([["x", "y", "z"]].map (fun row => row.take (["a"] : List String).length)) :=
  extract_ignores_extra_cells ["a"] [["x", "y", "z"]] (by decide)

/-- C9: the command-line acquisition function never returns the supplied
routing-table text: `parse_args` binds it to the attribute
`ip_route_output`, but the function reads the non-existent attribute
`input_string`, an uncaught AttributeError on every invocation, while the
attribute that was actually populated does hold the text. -/
theorem commandline_input_attribute_error (text : String) :
    _take_input_from_commandline text = none ∧
    getattrNamespace (parse_args text) "ip_route_output" = some text := by
  constructor
  · rfl
  · rfl

/-! ## The validator and the pipeline -/

theorem validate_rejected_inv (recs : List Record) (m : String) (c : Nat) (k : RejectKind)
    (h : _validate_output recs = ValidateResult.rejected m c k) : m = errorMessage ∧ c = 0 := by
  rw [_validate_output] at h
  split at h
  · simp only [ValidateResult.rejected.injEq] at h
    exact ⟨h.1.symm, h.2.1.symm⟩
  · exact ValidateResult.noConfusion h

theorem validate_accepted_inv (recs : List Record) (v : List Record)
    (h : _validate_output recs = ValidateResult.accepted v) : v = recs := by
  rw [_validate_output] at h
  split at h
  · exact ValidateResult.noConfusion h
  · simp only [ValidateResult.accepted.injEq] at h
    exact h.symm

/-- C3: validation accepts a record list, returning the very same list,
exactly when the list is non-empty and some record somewhere in it carries
a gateway field; the empty list is rejected as empty input and a non-empty
list without any gateway field as unrecognized format, in both cases with
the fixed message and exit status 0. -/
theorem validate_accepts_iff_gateway (out : List Record) :
    (_validate_output out = ValidateResult.accepted out ↔
      out ≠ [] ∧ ∃ r ∈ out, hasGateway r = true) ∧
    (∀ v, _validate_output out = ValidateResult.accepted v → v = out) ∧
    _validate_output [] = ValidateResult.rejected errorMessage 0 RejectKind.EmptyInput ∧
    (out ≠ [] → (∀ r ∈ out, hasGateway r = false) →
      _validate_output out = ValidateResult.rejected errorMessage 0 RejectKind.UnrecognizedFormat) := by
  refine ⟨⟨?_, ?_⟩, fun v hv => validate_accepted_inv out v hv, rfl, ?_⟩
  · intro hacc
    rw [_validate_output] at hacc
    split at hacc
    · exact ValidateResult.noConfusion hacc
    · rename_i hcond
      rw [Bool.or_eq_true, not_or, Bool.not_eq_true, Bool.not_eq_true',
        Bool.not_eq_false] at hcond
      obtain ⟨hne, hany⟩ := hcond
      refine ⟨by simpa using hne, ?_⟩
      simpa using hany
  · rintro ⟨hne, r, hr, hg⟩
    rw [_validate_output, if_neg]
    rw [Bool.or_eq_true, not_or, Bool.not_eq_true, Bool.not_eq_true', Bool.not_eq_false]
    exact ⟨by simpa using hne, by rw [List.any_eq_true]; exact ⟨r, hr, hg⟩⟩
  · intro hne hnog
    rw [_validate_output]
    have hempty : out.isEmpty = false := by simpa using hne
    have hany : out.any hasGateway = false := by
      rw [Bool.eq_false_iff]
      intro hc
      rw [List.any_eq_true] at hc
      obtain ⟨r, hr, hg⟩ := hc
      rw [hnog r hr] at hg
      exact Bool.noConfusion hg
    rw [if_pos (by rw [hempty, hany]; rfl), hempty]
    rfl

theorem validate_accepts_iff_gateway_witness :
    _validate_output [[("gateway", "192.168.1.1")]] =
      ValidateResult.accepted [[("gateway", "192.168.1.1")]] :=
  (validate_accepts_iff_gateway [[("gateway", "192.168.1.1")]]).1.mpr
    (by refine ⟨by decide, [("gateway", "192.168.1.1")], List.mem_cons_self _ _, by decide⟩)

/-- C5: whenever the pipeline terminates through a validator rejection it
does so with the single fixed diagnostic message and the neutral exit
status 0, never as a fatal fault; the only fatal (non-zero) outcome of the
embedded pipeline is the internal schema mismatch of a row shorter than
the header. (The remaining non-zero source named by the claim, a
malformed template, lives in the external template engine before this
pipeline starts.) -/
theorem pipeline_rejection_neutral_exit (h : List String) (rows : List (List String))
    (classic : Bool) :
    (∀ m k, runPipeline h rows classic = RunResult.exited m k → m = errorMessage ∧ k = 0) ∧
    (runPipeline h rows classic = RunResult.fatal → ∃ row ∈ rows, row.length < h.length) := by
  constructor
  · intro m k hrun
    rw [runPipeline] at hrun
    split at hrun
    · exact RunResult.noConfusion hrun
    · rename_i recs hex
      split at hrun
      · rename_i m' c' k' hval
        simp only [RunResult.exited.injEq] at hrun
        obtain ⟨rfl, rfl⟩ := hrun
        exact validate_rejected_inv recs m' c' k' hval
      · exact RunResult.noConfusion hrun
  · intro hrun
    rw [runPipeline] at hrun
    split at hrun
    · rename_i hex
      exact (extract_output_eq_none_iff h rows).mp hex
    · split at hrun <;> exact RunResult.noConfusion hrun

theorem pipeline_rejection_neutral_exit_witness :
    (errorMessage = errorMessage ∧ (0 : Nat) = 0) ∧
    (∃ row ∈ ([["x"]] : List (List String)), row.length < (["a", "b"] : List String).length) :=
  ⟨(pipeline_rejection_neutral_exit ["gateway"] [[""]] true).1 errorMessage 0 rfl,
   (pipeline_rejection_neutral_exit ["a", "b"] [["x"]] true).2 rfl⟩

/-! ## The serializer: mutation frame -/

/-- C7: classic mode's in-place mutation of its input list is exactly the
prepended opening bracket marker and the appended closing one: afterwards
the head is the opening marker, the last element the closing marker, and
everything strictly between them is the original list, unchanged and in
order; json mode leaves the list untouched. -/
theorem classic_mode_mutation_frame (out : List Entry) :
    (generate_output out true).1.head? = some (Entry.str "[") ∧
    (generate_output out true).1.getLast? = some (Entry.str "]") ∧
    ((generate_output out true).1.drop 1).dropLast = out ∧
    (generate_output out false).1 = out := by
  refine ⟨rfl, ?_, ?_, rfl⟩
  · show (Entry.str "[" :: (out ++ [Entry.str "]"])).getLast? = some (Entry.str "]")
    rw [← List.cons_append]
    exact List.getLast?_concat _
  · show ((Entry.str "[" :: (out ++ [Entry.str "]"])).drop 1).dropLast = out
    simp

/-- C8 counterexample: the classic-mode serializer does not leave its
in-memory input unmodified (the claim's only exception covers the two
validator termination points): on this concrete record list the list
after the call differs from the list before it. -/
theorem serializer_mutates_input_cex :
    (generate_output [Entry.obj [("gateway", "192.168.1.1")]] true).1 ≠
      [Entry.obj [("gateway", "192.168.1.1")]] := by
  decide

/-- C8 (amended): every core stage is a deterministic pure function of its
input that leaves its in-memory inputs unmodified, except for the two
explicit termination points in validation and for the classic-mode
serializer, whose sole in-place mutation of its input list is prepending
the opening and appending the closing bracket marker: json-mode
serialization returns its input list untouched, validation returns its
input unchanged whenever it returns at all, and the classic-mode
post-state is exactly the bracket-wrapped input. -/
theorem stages_pure_except_exits_and_staging (out : List Entry) (recs : List Record) :
    (generate_output out false).1 = out ∧
    (∀ v, _validate_output recs = ValidateResult.accepted v → v = recs) ∧
    (generate_output out true).1 = Entry.str "[" :: (out ++ [Entry.str "]"]) :=
  ⟨rfl, fun v hv => validate_accepted_inv recs v hv, rfl⟩

theorem stages_pure_except_exits_and_staging_witness :
    (generate_output [] false).1 = [] ∧
    [[("gateway", "g")]] = [[("gateway", "g")]] ∧
    (generate_output [] true).1 = Entry.str "[" :: ([] ++ [Entry.str "]"]) :=
  ⟨(stages_pure_except_exits_and_staging [] [[("gateway", "g")]]).1,
   (stages_pure_except_exits_and_staging [] [[("gateway", "g")]]).2.1 [[("gateway", "g")]] rfl,
   (stages_pure_except_exits_and_staging [] [[("gateway", "g")]]).2.2⟩

/-! ## The serializer: classic mode -/

theorem string_join_nil : String.join [] = "" := rfl

theorem generate_output_classic_eq (out : List Entry) :
    (generate_output out true).2 =
      String.join ((insertCommasFrom 0 (out.length + 2)
        (Entry.str "[" :: (out ++ [Entry.str "]"]))).map pyStr) := by
  show String.join ((insertCommasFrom 0 (Entry.str "[" :: (out ++ [Entry.str "]"])).length
      (Entry.str "[" :: (out ++ [Entry.str "]"]))).map pyStr) = _
  congr 2
  simp

theorem insertCommasFrom_tail (rest : List Record) : ∀ i n : Nat, 2 ≤ i → n = i + rest.length + 1 →
    String.join ((insertCommasFrom i n (rest.map Entry.obj ++ [Entry.str "]"])).map pyStr) =
      String.join (rest.map (fun r => "," ++ pyReprDict r)) ++ "]" := by
  induction rest with
  | nil =>
      intro i n h2 hn
      simp only [List.length_nil] at hn
      simp only [List.map_nil, List.nil_append, insertCommasFrom, List.append_eq]
      rw [if_neg (by omega)]
      simp [string_join_cons, string_join_nil, pyStr, String.append_empty, String.empty_append]
  | cons r rest ih =>
      intro i n h2 hn
      simp only [List.length_cons] at hn
      have hcond : 1 < i ∧ i < n - 1 := ⟨by omega, by omega⟩
      simp only [List.map_cons, List.cons_append, insertCommasFrom, if_pos hcond,
        List.append_eq]
      simp only [List.cons_append, List.nil_append, List.map_cons, string_join_cons, pyStr]
      rw [ih (i + 1) n (by omega) (by omega)]
      simp [String.append_assoc]

theorem insertCommasFrom_zero (n : Nat) (e0 e1 : Entry) (l : List Entry) :
    insertCommasFrom 0 n (e0 :: e1 :: l) = e0 :: e1 :: insertCommasFrom 2 n l := by
  simp only [insertCommasFrom, List.append_eq]
  rw [if_neg (by omega), if_neg (by omega)]
  simp

theorem commaJoin_cons (x : String) (xs : List String) :
    commaJoin (x :: xs) = x ++ String.join (xs.map (fun s => "," ++ s)) := by
  induction xs generalizing x with
  | nil => simp [commaJoin, string_join_nil, String.append_empty]
  | cons y ys ih =>
      show x ++ "," ++ commaJoin (y :: ys) = _
      rw [ih y]
      simp only [List.map_cons, string_join_cons]
      simp [String.append_assoc]

/-- C2: for every record list the classic-mode string is the opening
bracket, the Python renderings of the records joined with a comma strictly
between every pair of adjacent records and none before the first or after
the last, and the closing bracket; this holds at every record count,
including zero, one and two. -/
theorem classic_output_comma_join (recs : List Record) :
    (generate_output (recs.map Entry.obj) true).2 =
      "[" ++ commaJoin (recs.map pyReprDict) ++ "]" := by
  cases recs with
  | nil => rfl
  | cons r rest =>
      rw [generate_output_classic_eq]
      simp only [List.map_cons, List.length_cons, List.length_map, List.cons_append]
      rw [insertCommasFrom_zero]
      simp only [List.map_cons, string_join_cons, pyStr]
      rw [insertCommasFrom_tail rest 2 (rest.length + 1 + 2) (Nat.le_refl 2) (by omega)]
      rw [commaJoin_cons]
      simp [List.map_map, Function.comp_def, String.append_assoc]

/-! ## The serializer: json mode, round trip -/

theorem skipWs_nonws (c : Char) (cs : List Char) (h : isJsonWs c = false) :
    skipWs (c :: cs) = c :: cs := by
  simp [skipWs, h]

theorem skipWs_ws (c : Char) (cs : List Char) (h : isJsonWs c = true) :
    skipWs (c :: cs) = skipWs cs := by
  simp [skipWs, h]

theorem skipWs_spaces (n : Nat) (cs : List Char) :
    skipWs (spacesChars n ++ cs) = skipWs cs := by
  induction n with
  | zero => simp [spacesChars]
  | succ n ih =>
      rw [spacesChars, List.replicate_succ, List.cons_append,
        skipWs_ws _ _ (by decide)]
      exact ih

theorem skipWs_newline (cs : List Char) : skipWs (newlineChar :: cs) = skipWs cs :=
  skipWs_ws _ _ (by decide)

theorem skipWs_idem (cs : List Char) : skipWs (skipWs cs) = skipWs cs := by
  induction cs with
  | nil => rfl
  | cons c cs ih =>
      by_cases h : isJsonWs c = true
      · rw [skipWs_ws _ _ h]
        exact ih
      · have hb : isJsonWs c = false := by simpa using h
        rw [skipWs_nonws _ _ hb, skipWs_nonws _ _ hb]

theorem hexCharVal_toHexDigitChar : ∀ d : Nat, d < 16 → hexCharVal (toHexDigitChar d) = some d := by
  decide

theorem hex4Val_hex4Chars (n : Nat) (h : n < 65536) :
    hex4Val (toHexDigitChar (n / 4096 % 16)) (toHexDigitChar (n / 256 % 16))
      (toHexDigitChar (n / 16 % 16)) (toHexDigitChar (n % 16)) = some n := by
  have h1 := hexCharVal_toHexDigitChar (n / 4096 % 16) (Nat.mod_lt _ (by omega))
  have h2 := hexCharVal_toHexDigitChar (n / 256 % 16) (Nat.mod_lt _ (by omega))
  have h3 := hexCharVal_toHexDigitChar (n / 16 % 16) (Nat.mod_lt _ (by omega))
  have h4 := hexCharVal_toHexDigitChar (n % 16) (Nat.mod_lt _ (by omega))
  simp only [hex4Val, h1, h2, h3, h4, Option.some.injEq]
  omega

theorem char_not_surrogate (c : Char) : ¬(55296 ≤ c.toNat ∧ c.toNat < 56320) := by
  rcases c.valid with h | ⟨h1, _⟩
  · have : c.toNat < 55296 := h
    omega
  · have : 57343 < c.toNat := h1
    omega

theorem char_toNat_lt (c : Char) : c.toNat < 1114112 := by
  rcases c.valid with h | ⟨_, h2⟩
  · have : c.toNat < 55296 := h
    omega
  · have : c.toNat < 1114112 := h2
    omega

theorem parseStringBodyF_u_step (fuel : Nat) (d1 d2 d3 d4 : Char) (n : Nat) (rest : List Char)
    (hn : hex4Val d1 d2 d3 d4 = some n) (hns : (decide (55296 ≤ n) && decide (n < 56320)) = false) :
    parseStringBodyF (fuel + 1) (backslashChar :: 'u' :: d1 :: d2 :: d3 :: d4 :: rest) =
      match parseStringBodyF fuel rest with
      | none => none
      | some (s, r) => some (Char.ofNat n :: s, r) := by
  simp only [parseStringBodyF,
    show (backslashChar == quoteChar) = false from by decide,
    show (backslashChar == backslashChar) = true from by decide,
    show ('u' == 'u') = true from by decide,
    Bool.false_eq_true, if_false, if_true, hn, hns]

theorem parseStringBodyF_surrogate_step (fuel : Nat) (d1 d2 d3 d4 g1 g2 g3 g4 : Char)
    (n m : Nat) (rest : List Char)
    (hn : hex4Val d1 d2 d3 d4 = some n) (hm : hex4Val g1 g2 g3 g4 = some m)
    (hns : (decide (55296 ≤ n) && decide (n < 56320)) = true)
    (hms : (decide (56320 ≤ m) && decide (m < 57344)) = true) :
    parseStringBodyF (fuel + 1) (backslashChar :: 'u' :: d1 :: d2 :: d3 :: d4 ::
        backslashChar :: 'u' :: g1 :: g2 :: g3 :: g4 :: rest) =
      match parseStringBodyF fuel rest with
      | none => none
      | some (s, r) => some (Char.ofNat (65536 + (n - 55296) * 1024 + (m - 56320)) :: s, r) := by
  simp only [parseStringBodyF,
    show (backslashChar == quoteChar) = false from by decide,
    show (backslashChar == backslashChar) = true from by decide,
    show ('u' == 'u') = true from by decide,
    show (backslashChar == backslashChar && 'u' == 'u') = true from by decide,
    Bool.false_eq_true, if_false, if_true, hn, hm, hns, hms]
  rw [if_pos (show (true && true) = true from by decide)]

set_option maxRecDepth 8192 in
theorem parseStringBodyF_escape (fuel : Nat) (c : Char) (rest : List Char) :
    parseStringBodyF (fuel + 1) (jsonEscapeChar c ++ rest) =
      match parseStringBodyF fuel rest with
      | none => none
      | some (s, r) => some (c :: s, r) := by
  by_cases h1 : c = quoteChar
  · subst h1; rfl
  by_cases h2 : c = backslashChar
  · subst h2; rfl
  by_cases h3 : c = Char.ofNat 8
  · subst h3; rfl
  by_cases h4 : c = Char.ofNat 12
  · subst h4; rfl
  by_cases h5 : c = newlineChar
  · subst h5; rfl
  by_cases h6 : c = Char.ofNat 13
  · subst h6; rfl
  by_cases h7 : c = Char.ofNat 9
  · subst h7; rfl
  have hb1 : (c == quoteChar) = false := beq_eq_false_iff_ne.mpr h1
  have hb2 : (c == backslashChar) = false := beq_eq_false_iff_ne.mpr h2
  have hb3 : (c == Char.ofNat 8) = false := beq_eq_false_iff_ne.mpr h3
  have hb4 : (c == Char.ofNat 12) = false := beq_eq_false_iff_ne.mpr h4
  have hb5 : (c == newlineChar) = false := beq_eq_false_iff_ne.mpr h5
  have hb6 : (c == Char.ofNat 13) = false := beq_eq_false_iff_ne.mpr h6
  have hb7 : (c == Char.ofNat 9) = false := beq_eq_false_iff_ne.mpr h7
  by_cases h8 : 32 ≤ c.toNat ∧ c.toNat ≤ 126
  · have hesc : jsonEscapeChar c = [c] := by
      simp only [jsonEscapeChar]
      rw [hb1, hb2, hb3, hb4, hb5, hb6, hb7]
      simp only [Bool.false_eq_true, if_false]
      rw [if_pos (by rw [Bool.and_eq_true, decide_eq_true_eq, decide_eq_true_eq]; exact h8)]
    rw [hesc, List.singleton_append]
    simp only [parseStringBodyF]
    rw [hb1, hb2]
    simp only [Bool.false_eq_true, if_false]
  · have hb8 : (32 ≤ c.toNat && c.toNat ≤ 126) = false := by
      rw [Bool.eq_false_iff]
      intro hb
      rw [Bool.and_eq_true, decide_eq_true_eq, decide_eq_true_eq] at hb
      exact h8 hb
    have hnosur := char_not_surrogate c
    by_cases h9 : c.toNat < 65536
    · have hesc : jsonEscapeChar c = backslashChar :: 'u' :: hex4Chars c.toNat := by
        simp only [jsonEscapeChar]
        rw [hb1, hb2, hb3, hb4, hb5, hb6, hb7, hb8]
        simp only [Bool.false_eq_true, if_false]
        rw [if_pos h9]
      have hv := hex4Val_hex4Chars c.toNat h9
      have hcond : (decide (55296 ≤ c.toNat) && decide (c.toNat < 56320)) = false := by
        rw [Bool.eq_false_iff]
        intro hb
        rw [Bool.and_eq_true, decide_eq_true_eq, decide_eq_true_eq] at hb
        exact hnosur hb
      rw [hesc]
      simp only [hex4Chars, List.cons_append, List.nil_append]
      rw [parseStringBodyF_u_step fuel _ _ _ _ c.toNat rest hv hcond, Char.ofNat_toNat]
    · have h9' : 65536 ≤ c.toNat := by omega
      have hlt := char_toNat_lt c
      have hdiv : (c.toNat - 65536) / 1024 < 1024 := by
        apply Nat.div_lt_of_lt_mul
        omega
      have hmod : (c.toNat - 65536) % 1024 < 1024 :=
        Nat.mod_lt _ (by omega)
      have hesc : jsonEscapeChar c =
          backslashChar :: 'u' :: hex4Chars (55296 + (c.toNat - 65536) / 1024)
            ++ backslashChar :: 'u' :: hex4Chars (56320 + (c.toNat - 65536) % 1024) := by
        simp only [jsonEscapeChar]
        rw [hb1, hb2, hb3, hb4, hb5, hb6, hb7, hb8]
        simp only [Bool.false_eq_true, if_false]
        rw [if_neg h9]
      have hv1 := hex4Val_hex4Chars (55296 + (c.toNat - 65536) / 1024) (by omega)
      have hv2 := hex4Val_hex4Chars (56320 + (c.toNat - 65536) % 1024) (by omega)
      have hcond1 : (decide (55296 ≤ 55296 + (c.toNat - 65536) / 1024) &&
          decide (55296 + (c.toNat - 65536) / 1024 < 56320)) = true := by
        rw [Bool.and_eq_true, decide_eq_true_eq, decide_eq_true_eq]
        omega
      have hcond2 : (decide (56320 ≤ 56320 + (c.toNat - 65536) % 1024) &&
          decide (56320 + (c.toNat - 65536) % 1024 < 57344)) = true := by
        rw [Bool.and_eq_true, decide_eq_true_eq, decide_eq_true_eq]
        omega
      have harith : 65536 + (55296 + (c.toNat - 65536) / 1024 - 55296) * 1024 +
          (56320 + (c.toNat - 65536) % 1024 - 56320) = c.toNat := by
        have := Nat.div_add_mod (c.toNat - 65536) 1024
        omega
      rw [hesc]
      simp only [hex4Chars, List.cons_append, List.nil_append, List.append_assoc]
      rw [parseStringBodyF_surrogate_step fuel _ _ _ _ _ _ _ _ _ _ rest hv1 hv2 hcond1 hcond2,
        harith, Char.ofNat_toNat]

theorem jsonEscapeChar_length_pos (c : Char) : 1 ≤ (jsonEscapeChar c).length := by
  simp only [jsonEscapeChar]
  split_ifs <;> simp [hex4Chars]

theorem flatMap_escape_length (s : List Char) :
    s.length ≤ (s.flatMap jsonEscapeChar).length := by
  induction s with
  | nil => simp
  | cons c s ih =>
      rw [List.flatMap_cons, List.length_append, List.length_cons]
      have := jsonEscapeChar_length_pos c
      omega

theorem parseStringBodyF_flatMap (s : List Char) : ∀ (fuel : Nat) (rest : List Char),
    s.length < fuel →
    parseStringBodyF fuel (s.flatMap jsonEscapeChar ++ quoteChar :: rest) = some (s, rest) := by
  induction s with
  | nil =>
      intro fuel rest hf
      match fuel, hf with
      | fuel + 1, _ => rfl
  | cons c s ih =>
      intro fuel rest hf
      match fuel, hf with
      | fuel + 1, hf =>
          rw [List.flatMap_cons, List.append_assoc, parseStringBodyF_escape fuel c _]
          rw [ih fuel rest (by
            rw [List.length_cons] at hf
            omega)]

theorem parseStringBody_flatMap (s rest : List Char) :
    parseStringBody (s.flatMap jsonEscapeChar ++ quoteChar :: rest) = some (s, rest) := by
  unfold parseStringBody
  apply parseStringBodyF_flatMap
  have h1 := flatMap_escape_length s
  have h2 : (s.flatMap jsonEscapeChar ++ quoteChar :: rest).length =
      (s.flatMap jsonEscapeChar).length + (rest.length + 1) := by
    simp
  omega

theorem parseJsonStringChars_quoted (s : String) (rest : List Char) :
    parseJsonStringChars (jsonQuoteChars s ++ rest) = some (s.data, rest) := by
  show parseJsonStringChars
      ((quoteChar :: (s.data.flatMap jsonEscapeChar ++ [quoteChar])) ++ rest) = some (s.data, rest)
  rw [List.cons_append, List.append_assoc]
  simp only [parseJsonStringChars,
    show (quoteChar == quoteChar) = true from by decide, if_true]
  exact parseStringBody_flatMap s.data rest

theorem string_data_mk (cs : List Char) : (String.mk cs).data = cs := rfl

theorem skipWs_jsonQuote (s : String) (X : List Char) :
    skipWs (jsonQuoteChars s ++ X) = jsonQuoteChars s ++ X :=
  skipWs_nonws quoteChar _ (by decide)

theorem skipWs_jsonObj (w : Nat) (r : Record) (X : List Char) :
    skipWs (jsonObjChars w r ++ X) = jsonObjChars w r ++ X := by
  cases r with
  | nil => exact skipWs_nonws _ _ (by decide)
  | cons p ps => exact skipWs_nonws _ _ (by decide)

theorem parseObjMembers_ws (fuel : Nat) (c : Char) (cs : List Char) (h : isJsonWs c = true) :
    parseObjMembers (fuel + 1) (c :: cs) = parseObjMembers (fuel + 1) cs := by
  simp only [parseObjMembers]
  rw [skipWs_ws _ _ h]

theorem parseObjMembers_skipWs (fuel : Nat) (cs : List Char) :
    parseObjMembers (fuel + 1) (skipWs cs) = parseObjMembers (fuel + 1) cs := by
  simp only [parseObjMembers, skipWs_idem]

theorem parseObjMembers_step (k v : String) (w : Nat) (tail : List Char) (fuel : Nat) :
    parseObjMembers (fuel + 1) (jsonMemberChars w (k, v) ++ tail) =
      (match skipWs tail with
       | [] => none
       | d :: r4 =>
           if d == commaChar then
             match parseObjMembers fuel r4 with
             | none => none
             | some (ms, r5) => some ((k, v) :: ms, r5)
           else if d == rbrace then some ([(k, v)], r4)
           else none) := by
  have h1 : skipWs (jsonMemberChars w (k, v) ++ tail) =
      jsonQuoteChars k ++ (colonChar :: spaceChar :: (jsonQuoteChars v ++ tail)) := by
    simp only [jsonMemberChars, List.append_assoc, List.cons_append]
    rw [skipWs_spaces]
    exact skipWs_jsonQuote k _
  have h2 : skipWs (colonChar :: spaceChar :: (jsonQuoteChars v ++ tail)) =
      colonChar :: (spaceChar :: (jsonQuoteChars v ++ tail)) :=
    skipWs_nonws _ _ (by decide)
  have h3 : skipWs (spaceChar :: (jsonQuoteChars v ++ tail)) = jsonQuoteChars v ++ tail := by
    rw [skipWs_ws _ _ (by decide)]
    exact skipWs_jsonQuote v tail
  simp only [parseObjMembers, h1, parseJsonStringChars_quoted, h2, h3,
    show (colonChar == colonChar) = true from by decide, if_true, string_data_mk]

theorem parseObjMembers_members (ms : Record) : ∀ (w wc : Nat) (rest : List Char) (fuel : Nat),
    ms ≠ [] → ms.length ≤ fuel →
    parseObjMembers fuel
      (jsonMembersChars w ms ++ newlineChar :: (spacesChars wc ++ rbrace :: rest)) =
      some (ms, rest) := by
  induction ms with
  | nil => intro w wc rest fuel hne _; exact absurd rfl hne
  | cons p ps ih =>
      intro w wc rest fuel hne hf
      obtain ⟨k, v⟩ := p
      match fuel, hf with
      | fuel + 1, hf =>
          cases ps with
          | nil =>
              rw [show jsonMembersChars w [(k, v)] = jsonMemberChars w (k, v) from rfl]
              rw [parseObjMembers_step]
              rw [skipWs_newline, skipWs_spaces, skipWs_nonws _ _ (by decide)]
              simp only [show (rbrace == commaChar) = false from by decide,
                show (rbrace == rbrace) = true from by decide,
                Bool.false_eq_true, if_false, if_true]
          | cons q qs =>
              rw [show jsonMembersChars w ((k, v) :: q :: qs) =
                jsonMemberChars w (k, v) ++
                  commaChar :: newlineChar :: jsonMembersChars w (q :: qs) from rfl]
              simp only [List.append_assoc, List.cons_append]
              rw [parseObjMembers_step]
              rw [skipWs_nonws _ _ (by decide)]
              simp only [show (commaChar == commaChar) = true from by decide, if_true]
              match fuel, (by simp only [List.length_cons] at hf ⊢; omega :
                  1 ≤ fuel ∧ (q :: qs).length ≤ fuel) with
              | fuel + 1, ⟨_, hf2⟩ =>
                  rw [parseObjMembers_ws _ _ _ (by decide)]
                  rw [ih w wc rest (fuel + 1) (by simp) hf2]

theorem jsonQuoteChars_length (s : String) : 2 ≤ (jsonQuoteChars s).length := by
  simp [jsonQuoteChars]

theorem jsonMemberChars_length_pos (w : Nat) (p : String × String) :
    1 ≤ (jsonMemberChars w p).length := by
  obtain ⟨k, v⟩ := p
  have := jsonQuoteChars_length k
  simp [jsonMemberChars]
  omega

theorem jsonMembersChars_length (w : Nat) : ∀ ms : Record,
    ms.length ≤ (jsonMembersChars w ms).length := by
  intro ms
  induction ms with
  | nil => simp [jsonMembersChars]
  | cons p ps ih =>
      cases ps with
      | nil =>
          have := jsonMemberChars_length_pos w p
          rw [show jsonMembersChars w [p] = jsonMemberChars w p from rfl]
          simpa using this
      | cons q qs =>
          have h1 := jsonMemberChars_length_pos w p
          rw [show jsonMembersChars w (p :: q :: qs) = jsonMemberChars w p ++
            commaChar :: newlineChar :: jsonMembersChars w (q :: qs) from rfl]
          simp only [List.length_append, List.length_cons] at ih ⊢
          omega

theorem parseJsonObj_dump (r : Record) (w : Nat) (rest : List Char) :
    parseJsonObj (jsonObjChars w r ++ rest) = some (r, rest) := by
  cases r with
  | nil =>
      show parseJsonObj (lbrace :: ([rbrace] ++ rest)) = some ([], rest)
      have h1 : skipWs ([rbrace] ++ rest) = rbrace :: rest :=
        skipWs_nonws rbrace rest (by decide)
      simp only [parseJsonObj, show (lbrace == lbrace) = true from by decide, if_true, h1,
        show (rbrace == rbrace) = true from by decide]
  | cons p ps =>
      obtain ⟨k, v⟩ := p
      have hshape : jsonObjChars w ((k, v) :: ps) ++ rest =
          lbrace :: (newlineChar :: (jsonMembersChars (w + 2) ((k, v) :: ps) ++
            newlineChar :: (spacesChars w ++ rbrace :: rest))) := by
        show (lbrace :: newlineChar :: (jsonMembersChars (w + 2) ((k, v) :: ps) ++
          newlineChar :: (spacesChars w ++ [rbrace]))) ++ rest = _
        simp [List.append_assoc, List.cons_append, List.singleton_append]
      rw [hshape]
      have hex : ∃ Z, skipWs (jsonMembersChars (w + 2) ((k, v) :: ps) ++
          newlineChar :: (spacesChars w ++ rbrace :: rest)) = quoteChar :: Z := by
        cases ps with
        | nil =>
            rw [show jsonMembersChars (w + 2) [(k, v)] = jsonMemberChars (w + 2) (k, v) from rfl]
            simp only [jsonMemberChars, List.append_assoc, List.cons_append]
            rw [skipWs_spaces]
            exact ⟨_, skipWs_jsonQuote k _⟩
        | cons q qs =>
            rw [show jsonMembersChars (w + 2) ((k, v) :: q :: qs) =
              jsonMemberChars (w + 2) (k, v) ++
                commaChar :: newlineChar :: jsonMembersChars (w + 2) (q :: qs) from rfl]
            simp only [jsonMemberChars, List.append_assoc, List.cons_append]
            rw [skipWs_spaces]
            exact ⟨_, skipWs_jsonQuote k _⟩
      obtain ⟨Z, hZ⟩ := hex
      have hsk : skipWs (newlineChar :: (jsonMembersChars (w + 2) ((k, v) :: ps) ++
          newlineChar :: (spacesChars w ++ rbrace :: rest))) = quoteChar :: Z := by
        rw [skipWs_newline]
        exact hZ
      simp only [parseJsonObj, show (lbrace == lbrace) = true from by decide, if_true, hsk,
        show (quoteChar == rbrace) = false from by decide, Bool.false_eq_true, if_false]
      rw [← hZ, parseObjMembers_skipWs]
      have hm := jsonMembersChars_length (w + 2) ((k, v) :: ps)
      apply parseObjMembers_members
      · simp
      · simp only [List.length_cons, List.length_append] at hm ⊢
        omega

theorem jsonObjChars_length (w : Nat) (r : Record) : 2 ≤ (jsonObjChars w r).length := by
  cases r with
  | nil => simp [jsonObjChars]
  | cons p ps => simp [jsonObjChars]

theorem jsonEntryChars_length_pos (w : Nat) (e : Entry) : 1 ≤ (jsonEntryChars w e).length := by
  cases e with
  | obj r =>
      have := jsonObjChars_length w r
      show 1 ≤ (jsonObjChars w r).length
      omega
  | str s =>
      have := jsonQuoteChars_length s
      show 1 ≤ (jsonQuoteChars s).length
      omega

theorem jsonItemsChars_length (w : Nat) : ∀ es : List Entry,
    es.length ≤ (jsonItemsChars w es).length := by
  intro es
  induction es with
  | nil => simp [jsonItemsChars]
  | cons e es ih =>
      cases es with
      | nil =>
          rw [show jsonItemsChars w [e] = spacesChars w ++ jsonEntryChars w e from rfl]
          have := jsonEntryChars_length_pos w e
          simp only [List.length_append, List.length_cons, List.length_nil]
          omega
      | cons f fs =>
          rw [show jsonItemsChars w (e :: f :: fs) = spacesChars w ++ jsonEntryChars w e ++
            commaChar :: newlineChar :: jsonItemsChars w (f :: fs) from rfl]
          have h1 := jsonEntryChars_length_pos w e
          simp only [List.length_append, List.length_cons] at ih ⊢
          omega

theorem jsonObjChars_head (w : Nat) (r : Record) (X : List Char) :
    ∃ Z, jsonObjChars w r ++ X = lbrace :: Z := by
  cases r with
  | nil => exact ⟨_, rfl⟩
  | cons p ps => exact ⟨_, rfl⟩

theorem parseArrItems_ws (fuel : Nat) (c : Char) (cs : List Char) (h : isJsonWs c = true) :
    parseArrItems (fuel + 1) (c :: cs) = parseArrItems (fuel + 1) cs := by
  simp only [parseArrItems]
  rw [skipWs_ws _ _ h]

theorem parseArrItems_skipWs (fuel : Nat) (cs : List Char) :
    parseArrItems (fuel + 1) (skipWs cs) = parseArrItems (fuel + 1) cs := by
  simp only [parseArrItems, skipWs_idem]

theorem parseArrItems_step (r : Record) (tail : List Char) (fuel : Nat) :
    parseArrItems (fuel + 1) (spacesChars 2 ++ (jsonObjChars 2 r ++ tail)) =
      (match skipWs tail with
       | [] => none
       | c :: r2 =>
           if c == commaChar then
             match parseArrItems fuel r2 with
             | none => none
             | some (rs, r3) => some (r :: rs, r3)
           else if c == rbrack then some ([r], r2)
           else none) := by
  have h1 : skipWs (spacesChars 2 ++ (jsonObjChars 2 r ++ tail)) = jsonObjChars 2 r ++ tail := by
    rw [skipWs_spaces]
    exact skipWs_jsonObj 2 r tail
  simp only [parseArrItems, h1, parseJsonObj_dump]

theorem parseArrItems_items (rs : List Record) : ∀ (rest : List Char) (fuel : Nat),
    rs ≠ [] → rs.length ≤ fuel →
    parseArrItems fuel (jsonItemsChars 2 (rs.map Entry.obj) ++ newlineChar :: rbrack :: rest) =
      some (rs, rest) := by
  induction rs with
  | nil => intro rest fuel hne _; exact absurd rfl hne
  | cons r rs ih =>
      intro rest fuel hne hf
      match fuel, hf with
      | fuel + 1, hf =>
          cases rs with
          | nil =>
              rw [show jsonItemsChars 2 ([r].map Entry.obj) =
                spacesChars 2 ++ jsonObjChars 2 r from rfl]
              rw [List.append_assoc, parseArrItems_step]
              rw [skipWs_newline, skipWs_nonws _ _ (by decide)]
              simp only [show (rbrack == commaChar) = false from by decide,
                show (rbrack == rbrack) = true from by decide,
                Bool.false_eq_true, if_false, if_true]
          | cons r2 rs2 =>
              rw [show jsonItemsChars 2 ((r :: r2 :: rs2).map Entry.obj) =
                spacesChars 2 ++ jsonObjChars 2 r ++
                  commaChar :: newlineChar :: jsonItemsChars 2 ((r2 :: rs2).map Entry.obj) from rfl]
              simp only [List.append_assoc, List.cons_append]
              rw [parseArrItems_step]
              rw [skipWs_nonws _ _ (by decide)]
              simp only [show (commaChar == commaChar) = true from by decide, if_true]
              match fuel, (by simp only [List.length_cons] at hf ⊢; omega :
                  1 ≤ fuel ∧ (r2 :: rs2).length ≤ fuel) with
              | fuel + 1, ⟨_, hf2⟩ =>
                  rw [parseArrItems_ws _ _ _ (by decide)]
                  rw [ih rest (fuel + 1) (by simp) hf2]

theorem parseJsonRecords_dump (rs : List Record) :
    parseJsonRecords (String.mk (jsonDumpChars (rs.map Entry.obj))) = some rs := by
  cases rs with
  | nil => rfl
  | cons r rs =>
      rw [show jsonDumpChars ((r :: rs).map Entry.obj) =
        lbrack :: newlineChar :: (jsonItemsChars 2 ((r :: rs).map Entry.obj) ++
          [newlineChar, rbrack]) from rfl]
      simp only [parseJsonRecords, string_data_mk]
      rw [skipWs_nonws _ _ (by decide)]
      simp only [show (lbrack == lbrack) = true from by decide, if_true]
      have hex : ∃ Z, skipWs (jsonItemsChars 2 ((r :: rs).map Entry.obj) ++
          [newlineChar, rbrack]) = lbrace :: Z := by
        cases rs with
        | nil =>
            rw [show jsonItemsChars 2 ([r].map Entry.obj) =
              spacesChars 2 ++ jsonObjChars 2 r from rfl]
            rw [List.append_assoc, skipWs_spaces]
            obtain ⟨Z, hZ⟩ := jsonObjChars_head 2 r [newlineChar, rbrack]
            exact ⟨Z, by rw [skipWs_jsonObj, hZ]⟩
        | cons r2 rs2 =>
            rw [show jsonItemsChars 2 ((r :: r2 :: rs2).map Entry.obj) =
              spacesChars 2 ++ jsonObjChars 2 r ++
                commaChar :: newlineChar :: jsonItemsChars 2 ((r2 :: rs2).map Entry.obj) from rfl]
            simp only [List.append_assoc, List.cons_append]
            rw [skipWs_spaces]
            obtain ⟨Z, hZ⟩ := jsonObjChars_head 2 r _
            exact ⟨Z, by rw [skipWs_jsonObj, hZ]⟩
      obtain ⟨Z, hZ⟩ := hex
      have hsk : skipWs (newlineChar :: (jsonItemsChars 2 ((r :: rs).map Entry.obj) ++
          [newlineChar, rbrack])) = lbrace :: Z := by
        rw [skipWs_newline]
        exact hZ
      simp only [hsk, show (lbrace == rbrack) = false from by decide,
        Bool.false_eq_true, if_false]
      rw [← hZ, parseArrItems_skipWs]
      have hil := jsonItemsChars_length 2 ((r :: rs).map Entry.obj)
      rw [parseArrItems_items (r :: rs) [] _ (by simp) (by
        simp only [List.length_cons, List.length_append, List.length_map] at hil ⊢
        omega)]
      simp [skipWs]

/-- C6: json-mode serialization renders the record list as the 2-space
indented JSON array of objects of `json.dumps`, and parsing that output
back as JSON and keeping only the non-empty fields reproduces the original
record set's field contents exactly, in order (for a record set produced
by extraction every field value is non-empty, which is the stated
hypothesis). -/
theorem json_mode_round_trip (rs : List Record)
    (hval : ∀ r ∈ rs, ∀ p ∈ r, p.2 ≠ "") :
    (parseJsonRecords (generate_output (rs.map Entry.obj) false).2).map
      (fun recs => recs.map (fun r => r.filter (fun p => p.2 != ""))) = some rs := by
  have hgen : (generate_output (rs.map Entry.obj) false).2 =
      String.mk (jsonDumpChars (rs.map Entry.obj)) := rfl
  have hmap : ∀ (l : List Record), (∀ r ∈ l, ∀ p ∈ r, p.2 ≠ "") →
      l.map (fun r => r.filter (fun p => p.2 != "")) = l := by
    intro l
    induction l with
    | nil => intro _; rfl
    | cons r l ih =>
        intro hl
        rw [List.map_cons, ih (fun x hx => hl x (List.mem_cons_of_mem _ hx))]
        congr 1
        apply List.filter_eq_self.mpr
        intro p hp
        simpa using hl r (List.mem_cons_self _ _) p hp
  rw [hgen, parseJsonRecords_dump, Option.map_some', hmap rs hval]

theorem json_mode_round_trip_witness :
    (parseJsonRecords
        (generate_output ([[("gateway", "192.168.1.1")]].map Entry.obj) false).2).map
      (fun recs => recs.map (fun r => r.filter (fun p => p.2 != ""))) =
      some [[("gateway", "192.168.1.1")]] :=
  json_mode_round_trip [[("gateway", "192.168.1.1")]] (by decide)

end IpRoute
